import Mathlib

/-!
Verification of the Divercite minimax agent (`my_player.py`).

The development shallowly embeds the agent's code: the external rules engine
(board representation, legal-move generation, move application, scoring,
termination and the per-cell divercite check) is modelled as an opaque
record of collaborator functions (`Game`), exactly the services the code
consumes; the agent's own functions (`get_dynamic_depth`, `minimax`,
`evaluate_state`, `count_divercite_potential`, `get_opponent_id`,
`compute_action`) are translated line by line.  Search values are integers
extended with the two infinities because the code seeds its loops with
`-math.inf` and `+math.inf`.
-/

namespace Divercite

/-- Extended evaluation values: finite integer heuristic scores together with
the `-math.inf` / `+math.inf` seeds used by the search loops. -/
inductive Val where
  | ninf : Val
  | num : Int → Val
  | pinf : Val
deriving DecidableEq

/-- Strict `<` on extended values, mirroring Python float comparison
restricted to the values the program produces (no NaN). -/
def Val.blt : Val → Val → Bool
  | _, Val.ninf => false
  | Val.ninf, _ => true
  | Val.num a, Val.num b => decide (a < b)
  | Val.num _, Val.pinf => true
  | Val.pinf, _ => false

/-- Non-strict `<=` on extended values. -/
def Val.ble (x y : Val) : Bool := !(Val.blt y x)

/-- Binary maximum on extended values (used by the pruning-free reference
search). -/
def Val.vmax (x y : Val) : Val := if Val.blt x y then y else x

/-- Binary minimum on extended values. -/
def Val.vmin (x y : Val) : Val := if Val.blt y x then y else x

theorem Val.blt_x_ninf (x : Val) : Val.blt x Val.ninf = false := by
  cases x <;> rfl

theorem Val.pinf_blt (x : Val) : Val.blt Val.pinf x = false := by
  cases x <;> rfl

theorem Val.blt_irrefl (x : Val) : Val.blt x x = false := by
  cases x <;> simp [Val.blt]

theorem Val.ble_refl (x : Val) : Val.ble x x = true := by
  simp [Val.ble, Val.blt_irrefl]

theorem Val.ninf_ble (x : Val) : Val.ble Val.ninf x = true := by
  simp [Val.ble, Val.blt_x_ninf]

theorem Val.ble_pinf (x : Val) : Val.ble x Val.pinf = true := by
  simp [Val.ble, Val.pinf_blt]

theorem Val.ble_ninf_iff (x : Val) : Val.ble x Val.ninf = true ↔ x = Val.ninf := by
  cases x <;> simp [Val.ble, Val.blt]

theorem Val.pinf_ble_iff (x : Val) : Val.ble Val.pinf x = true ↔ x = Val.pinf := by
  cases x <;> simp [Val.ble, Val.blt]

theorem Val.ble_of_not_blt {x y : Val} (h : Val.blt x y = false) : Val.ble y x = true := by
  simp [Val.ble, h]

theorem Val.not_blt_of_ble {x y : Val} (h : Val.ble y x = true) : Val.blt x y = false := by
  simpa [Val.ble] using h

theorem Val.blt_of_not_ble {x y : Val} (h : Val.ble y x = false) : Val.blt x y = true := by
  simpa [Val.ble] using h

theorem Val.ble_of_blt {x y : Val} (h : Val.blt x y = true) : Val.ble x y = true := by
  cases x <;> cases y <;> simp_all [Val.blt, Val.ble] <;> omega

theorem Val.blt_asymm {x y : Val} (h : Val.blt x y = true) : Val.blt y x = false := by
  cases x <;> cases y <;> simp_all [Val.blt] <;> omega

theorem Val.blt_trans {x y z : Val} (h1 : Val.blt x y = true) (h2 : Val.blt y z = true) :
    Val.blt x z = true := by
  cases x <;> cases y <;> cases z <;> simp_all [Val.blt] <;> omega

theorem Val.blt_of_ble_of_blt {x y z : Val} (h1 : Val.ble x y = true) (h2 : Val.blt y z = true) :
    Val.blt x z = true := by
  cases x <;> cases y <;> cases z <;> simp_all [Val.blt, Val.ble] <;> omega

theorem Val.blt_of_blt_of_ble {x y z : Val} (h1 : Val.blt x y = true) (h2 : Val.ble y z = true) :
    Val.blt x z = true := by
  cases x <;> cases y <;> cases z <;> simp_all [Val.blt, Val.ble] <;> omega

theorem Val.ble_trans {x y z : Val} (h1 : Val.ble x y = true) (h2 : Val.ble y z = true) :
    Val.ble x z = true := by
  cases x <;> cases y <;> cases z <;> simp_all [Val.blt, Val.ble] <;> omega

theorem Val.ble_antisymm {x y : Val} (h1 : Val.ble x y = true) (h2 : Val.ble y x = true) :
    x = y := by
  cases x <;> cases y <;> simp_all [Val.blt, Val.ble] <;> omega

theorem Val.ble_vmax_left (x y : Val) : Val.ble x (Val.vmax x y) = true := by
  by_cases h : Val.blt x y = true
  · simp [Val.vmax, h, Val.ble_of_blt h]
  · simp only [Bool.not_eq_true] at h
    simp [Val.vmax, h, Val.ble_refl]

theorem Val.ble_vmax_right (x y : Val) : Val.ble y (Val.vmax x y) = true := by
  by_cases h : Val.blt x y = true
  · simp [Val.vmax, h, Val.ble_refl]
  · simp only [Bool.not_eq_true] at h
    simp [Val.vmax, h, Val.ble_of_not_blt h]

theorem Val.vmax_ble {x y z : Val} (hx : Val.ble x z = true) (hy : Val.ble y z = true) :
    Val.ble (Val.vmax x y) z = true := by
  by_cases h : Val.blt x y = true
  · simp [Val.vmax, h, hy]
  · simp only [Bool.not_eq_true] at h
    simp [Val.vmax, h, hx]

theorem Val.vmax_eq_left {x y : Val} (h : Val.ble y x = true) : Val.vmax x y = x := by
  simp [Val.vmax, Val.not_blt_of_ble h]

theorem Val.vmax_eq_right {x y : Val} (h : Val.ble x y = true) : Val.vmax x y = y := by
  by_cases hxy : Val.blt x y = true
  · simp [Val.vmax, hxy]
  · simp only [Bool.not_eq_true] at hxy
    have hyx : Val.ble y x = true := Val.ble_of_not_blt hxy
    have heq : x = y := Val.ble_antisymm h hyx
    rw [heq]
    simp [Val.vmax]

theorem Val.vmax_x_ninf (x : Val) : Val.vmax x Val.ninf = x := by
  simp [Val.vmax, Val.blt_x_ninf]

theorem Val.vmax_cases (x y : Val) : Val.vmax x y = x ∨ Val.vmax x y = y := by
  by_cases h : Val.blt x y = true
  · exact Or.inr (by simp [Val.vmax, h])
  · simp only [Bool.not_eq_true] at h
    exact Or.inl (by simp [Val.vmax, h])

theorem Val.ble_vmin_left (x y : Val) : Val.ble (Val.vmin x y) x = true := by
  by_cases h : Val.blt y x = true
  · simp [Val.vmin, h, Val.ble_of_blt h]
  · simp only [Bool.not_eq_true] at h
    simp [Val.vmin, h, Val.ble_refl]

theorem Val.ble_vmin_right (x y : Val) : Val.ble (Val.vmin x y) y = true := by
  by_cases h : Val.blt y x = true
  · simp [Val.vmin, h, Val.ble_refl]
  · simp only [Bool.not_eq_true] at h
    simp [Val.vmin, h, Val.ble_of_not_blt h]

theorem Val.ble_vmin {x y z : Val} (hx : Val.ble z x = true) (hy : Val.ble z y = true) :
    Val.ble z (Val.vmin x y) = true := by
  by_cases h : Val.blt y x = true
  · simp [Val.vmin, h, hy]
  · simp only [Bool.not_eq_true] at h
    simp [Val.vmin, h, hx]

theorem Val.vmin_eq_left {x y : Val} (h : Val.ble x y = true) : Val.vmin x y = x := by
  simp [Val.vmin, Val.not_blt_of_ble h]

theorem Val.vmin_eq_right {x y : Val} (h : Val.ble y x = true) : Val.vmin x y = y := by
  by_cases hxy : Val.blt y x = true
  · simp [Val.vmin, hxy]
  · simp only [Bool.not_eq_true] at hxy
    have hxy2 : Val.ble x y = true := Val.ble_of_not_blt hxy
    have heq : x = y := Val.ble_antisymm hxy2 h
    rw [heq]
    simp [Val.vmin]

theorem Val.vmin_x_pinf (x : Val) : Val.vmin x Val.pinf = x := by
  simp [Val.vmin, Val.pinf_blt]

theorem Val.vmin_cases (x y : Val) : Val.vmin x y = x ∨ Val.vmin x y = y := by
  by_cases h : Val.blt y x = true
  · exact Or.inr (by simp [Val.vmin, h])
  · simp only [Bool.not_eq_true] at h
    exact Or.inl (by simp [Val.vmin, h])

theorem Val.foldl_vmax_ge_seed : ∀ (l : List Val) (s : Val),
    Val.ble s (l.foldl Val.vmax s) = true := by
  intro l
  induction l with
  | nil => intro s; exact Val.ble_refl s
  | cons x xs ih =>
      intro s
      exact Val.ble_trans (Val.ble_vmax_left s x) (ih (Val.vmax s x))

theorem Val.foldl_vmin_le_seed : ∀ (l : List Val) (s : Val),
    Val.ble (l.foldl Val.vmin s) s = true := by
  intro l
  induction l with
  | nil => intro s; exact Val.ble_refl s
  | cons x xs ih =>
      intro s
      exact Val.ble_trans (ih (Val.vmin s x)) (Val.ble_vmin_left s x)

/-- `foldl` over a mapped list, specialised so the development does not rely
on library lemma names. -/
theorem foldl_map_op {μ : Type} (op : Val → Val → Val) (f : μ → Val) :
    ∀ (l : List μ) (s : Val), (l.map f).foldl op s = l.foldl (fun acc c => op acc (f c)) s := by
  intro l
  induction l with
  | nil => intro s; rfl
  | cons x xs ih => intro s; simp [ih]

/-- A piece on the board; the code only reads its owner via
`piece.get_owner_id()`. -/
structure Piece where
  ownerId : Nat
deriving DecidableEq

/-- The external rules engine consumed by the agent, with exactly the
services `my_player.py` calls on states: `is_done`,
`generate_possible_light_actions`, `apply_action`, `scores`, the player
list, and the board accessors used by `count_divercite_potential`
(`get_rep().get_dimensions()`, `get_rep().get_env()`, `in_board`,
`check_divercite`).  `σ` is the opaque state type, `μ` the opaque action
type. -/
structure Game (σ : Type) (μ : Type) where
  isDone : σ → Bool
  moves : σ → List μ
  applyAction : σ → μ → σ
  scores : σ → Nat → Int
  players : σ → List Nat
  dims : σ → Nat × Nat
  inBoard : σ → Nat × Nat → Bool
  env : σ → Nat × Nat → Option Piece
  checkDivercite : σ → Nat × Nat → Bool

/-- The mutable state of a `MyPlayer` instance: `self.time_used` and
`self.total_time_budget`.  Time quantities are modelled as integer
time-units (the Python signature annotates `remaining_time: int`; the
float-valued wall-clock durations enter only as opaque measured inputs, so
an ordered additive group of integers is a faithful carrier for every
property stated below). -/
structure MyPlayer where
  time_used : Int
  total_time_budget : Int
deriving DecidableEq

/-- `__init__`: `time_used = 0`, `total_time_budget = 900`. -/
def MyPlayer.init : MyPlayer := { time_used := 0, total_time_budget := 900 }

/-- `get_opponent_id`: scan `game_state.players` and return the first id
different from the agent's own id (`None`, i.e. `none`, when every listed
player has the agent's id). -/
def get_opponent_id {σ μ : Type} (g : Game σ μ) (me : Nat) (s : σ) : Option Nat :=
  (g.players s).find? (fun pid => pid != me)

/-- `get_dynamic_depth`: the three-tier depth schedule on remaining time. -/
def get_dynamic_depth (remaining_time : Int) : Nat :=
  if remaining_time > 600 then 3
  else if remaining_time > 300 then 2
  else 1

/-- `count_divercite_potential`: scan the rectangular board extent; count the
cells that are on the board, occupied, owned by `player_id` and satisfy the
engine's divercite check. -/
def count_divercite_potential {σ μ : Type} (g : Game σ μ) (s : σ) (player_id : Nat) : Nat :=
  (List.range (g.dims s).1).foldl (fun count i =>
    (List.range (g.dims s).2).foldl (fun count2 j =>
      if g.inBoard s (i, j) then
        match g.env s (i, j) with
        | some piece =>
            if piece.ownerId == player_id && g.checkDivercite s (i, j) then count2 + 1
            else count2
        | none => count2
      else count2) count) 0

/-- `evaluate_state`: score differential plus `divercite_bonus = 5` times the
difference in divercite potential, from the acting agent's perspective.
On a state whose player list yields no opponent id the Python code would
raise a `KeyError` out of `state.scores[None]`; the spec's two-player
contract rules that out, and this embedding returns `0` on that dead
branch, which no theorem below relies on. -/
def evaluate_state {σ μ : Type} (g : Game σ μ) (me : Nat) (s : σ) : Int :=
  match get_opponent_id g me s with
  | some opp =>
      let player_score := g.scores s me
      let opponent_score := g.scores s opp
      let divercite_bonus : Int := 5
      let score_diff := player_score - opponent_score
      let divercite_potential : Int :=
        (count_divercite_potential g s me : Int) - (count_divercite_potential g s opp : Int)
      score_diff + divercite_potential * divercite_bonus
  | none => 0

/-- The maximizing `for` loop of `minimax`, with its `break`-based beta
cutoff: `child c a` is the value of `minimax(new_state, depth-1, a, beta,
False)` for the move `c` at the current alpha `a`; `m` is `max_value`, `a`
the running `alpha`, `best` the running `best_action`. -/
def maxLoop {μ : Type} (child : μ → Val → Val) (beta : Val) :
    List μ → Val → Val → Option μ → Val × Option μ
  | [], m, _a, best => (m, best)
  | c :: rest, m, a, best =>
      if Val.blt m (child c a) then
        if Val.ble beta (child c a) then (child c a, some c)
        else maxLoop child beta rest (child c a) (child c a) (some c)
      else
        if Val.ble beta m then (m, best)
        else maxLoop child beta rest m a best

/-- The minimizing `for` loop of `minimax`, with its `break`-based alpha
cutoff: `m` is `min_value`, `b` the running `beta`. -/
def minLoop {μ : Type} (child : μ → Val → Val) (alpha : Val) :
    List μ → Val → Val → Option μ → Val × Option μ
  | [], m, _b, best => (m, best)
  | c :: rest, m, b, best =>
      if Val.blt (child c b) m then
        if Val.ble (child c b) alpha then (child c b, some c)
        else minLoop child alpha rest (child c b) (child c b) (some c)
      else
        if Val.ble m alpha then (m, best)
        else minLoop child alpha rest m b best

/-- `minimax`: depth-limited minimax with alpha-beta pruning, returning
`(value, best_action)`.  Terminal condition `depth == 0 or state.is_done()`
returns `(evaluate_state(state), None)`. -/
def minimax {σ μ : Type} (g : Game σ μ) (me : Nat) :
    Nat → σ → Val → Val → Bool → Val × Option μ
  | 0, s, _alpha, _beta, _maxP => (Val.num (evaluate_state g me s), none)
  | d + 1, s, alpha, beta, maximizing_player =>
      if g.isDone s then (Val.num (evaluate_state g me s), none)
      else if maximizing_player then
        maxLoop (fun c a => (minimax g me d (g.applyAction s c) a beta false).1)
          beta (g.moves s) Val.ninf alpha none
      else
        minLoop (fun c b => (minimax g me d (g.applyAction s c) alpha b true).1)
          alpha (g.moves s) Val.pinf beta none

/-- Modelled from the spec: exhaustive depth-limited minimax with no pruning
("the value returned by exhaustive depth-limited minimax (no pruning) on the
same state at the same depth"), the reference the pruning search is compared
against in the refinement claim. -/
def minimaxFull {σ μ : Type} (g : Game σ μ) (me : Nat) : Nat → σ → Bool → Val
  | 0, s, _maxP => Val.num (evaluate_state g me s)
  | d + 1, s, maximizing_player =>
      if g.isDone s then Val.num (evaluate_state g me s)
      else if maximizing_player then
        (g.moves s).foldl
          (fun acc c => Val.vmax acc (minimaxFull g me d (g.applyAction s c) false)) Val.ninf
      else
        (g.moves s).foldl
          (fun acc c => Val.vmin acc (minimaxFull g me d (g.applyAction s c) true)) Val.pinf

/-- The exception raised by `compute_action`
(`MethodNotImplementedError("No valid action found.")`). -/
inductive AgentError where
  | MethodNotImplementedError : String → AgentError
deriving DecidableEq

/-- `compute_action`: derive the remaining internal budget, pick a depth, run
`minimax` from the root window `(-inf, +inf)` as the maximizing player, add
the measured wall-clock duration of the cycle (the oracle input `elapsed`)
to `time_used`, then validate the move against the current legal-move set.
The caller-supplied `remaining_time` is bound but never read, exactly as in
the Python signature.  Returns the updated player state and either the
validated move or the raised error. -/
def compute_action {σ μ : Type} [DecidableEq μ] (g : Game σ μ) (me : Nat)
    (p : MyPlayer) (current_state : σ) (remaining_time : Int) (elapsed : Int) :
    MyPlayer × Except AgentError μ :=
  let remaining_game_time := p.total_time_budget - p.time_used
  let depth := get_dynamic_depth remaining_game_time
  let result := minimax g me depth current_state Val.ninf Val.pinf true
  let p2 : MyPlayer := { p with time_used := p.time_used + elapsed }
  match result.2 with
  | some action =>
      if action ∈ g.moves current_state then (p2, Except.ok action)
      else (p2, Except.error (AgentError.MethodNotImplementedError "No valid action found."))
  | none => (p2, Except.error (AgentError.MethodNotImplementedError "No valid action found."))

/-- A sequence of decision cycles: fold `compute_action` over a list of
`(state, remaining_time argument, measured duration)` triples, threading the
player's mutable state. -/
def runCalls {σ μ : Type} [DecidableEq μ] (g : Game σ μ) (me : Nat) :
    MyPlayer → List (σ × Int × Int) → MyPlayer
  | p, [] => p
  | p, (s, rt, el) :: rest => runCalls g me (compute_action g me p s rt el).1 rest

/-- Row-major enumeration of the board's rectangular extent, the cell order
scanned by `count_divercite_potential`. -/
def boardCells (r c : Nat) : List (Nat × Nat) :=
  (List.range r).foldr (fun i acc => ((List.range c).map (fun j => (i, j))) ++ acc) []

/-- The per-cell predicate counted by `count_divercite_potential`: on the
playable board, occupied, owned by `player_id`, and passing the engine's
divercite check. -/
def formationCell {σ μ : Type} (g : Game σ μ) (s : σ) (player_id : Nat)
    (cell : Nat × Nat) : Bool :=
  g.inBoard s cell &&
    match g.env s cell with
    | some piece => piece.ownerId == player_id && g.checkDivercite s cell
    | none => false

/-- The child-value function used by the maximizing branch of `minimax` at
depth `d + 1`: move `c` explored at the current alpha `a` with the node's
fixed beta. -/
def maxChild {σ μ : Type} (g : Game σ μ) (me : Nat) (d : Nat) (s : σ) (beta : Val) :
    μ → Val → Val :=
  fun c a => (minimax g me d (g.applyAction s c) a beta false).1

/-- The child-value function used by the minimizing branch of `minimax` at
depth `d + 1`: move `c` explored at the current beta `b` with the node's
fixed alpha. -/
def minChild {σ μ : Type} (g : Game σ μ) (me : Nat) (d : Nat) (s : σ) (alpha : Val) :
    μ → Val → Val :=
  fun c b => (minimax g me d (g.applyAction s c) alpha b true).1

/-- The `(move, value)` pairs actually explored by the maximizing loop, in
order, with the same evolving alpha and the same beta cutoff as `maxLoop`. -/
def maxTrace {μ : Type} (child : μ → Val → Val) (beta : Val) :
    List μ → Val → Val → List (μ × Val)
  | [], _m, _a => []
  | c :: rest, m, a =>
      (c, child c a) ::
        (if Val.blt m (child c a) then
          (if Val.ble beta (child c a) then []
           else maxTrace child beta rest (child c a) (child c a))
        else
          (if Val.ble beta m then []
           else maxTrace child beta rest m a))

/-- The `(move, value)` pairs actually explored by the minimizing loop. -/
def minTrace {μ : Type} (child : μ → Val → Val) (alpha : Val) :
    List μ → Val → Val → List (μ × Val)
  | [], _m, _b => []
  | c :: rest, m, b =>
      (c, child c b) ::
        (if Val.blt (child c b) m then
          (if Val.ble (child c b) alpha then []
           else minTrace child alpha rest (child c b) (child c b))
        else
          (if Val.ble m alpha then []
           else minTrace child alpha rest m b))

/-- The strict-improvement running-maximum fold over a list of explored
`(move, value)` pairs: the best move is replaced only when a value is
strictly greater than the running best. -/
def bestFold {μ : Type} : List (μ × Val) → Val → Option μ → Val × Option μ
  | [], m, best => (m, best)
  | (c, v) :: rest, m, best =>
      if Val.blt m v then bestFold rest v (some c) else bestFold rest m best

/-- The strict-improvement running-minimum fold over explored pairs. -/
def bestFoldMin {μ : Type} : List (μ × Val) → Val → Option μ → Val × Option μ
  | [], m, best => (m, best)
  | (c, v) :: rest, m, best =>
      if Val.blt v m then bestFoldMin rest v (some c) else bestFoldMin rest m best

/-- Concrete three-ply fixture: state `0` steps to `1` steps to `2`; state
`2` is not finished yet offers no legal move, so the depth-1 maximizing call
on it returns `-inf`, which propagates up unchanged.  Used to refute the
unamended tie-break claim. -/
def CexG : Game Nat Nat := {
  isDone := fun _ => false,
  moves := fun s => if s ≤ 1 then [5] else [],
  applyAction := fun s _ => s + 1,
  scores := fun _ _ => 0,
  players := fun _ => [0, 1],
  dims := fun _ => (0, 0),
  inBoard := fun _ _ => false,
  env := fun _ _ => none,
  checkDivercite := fun _ _ => false }

/-- Concrete fixture game used to instantiate theorems with hypotheses:
two moves at state `0`, a terminal state `99`, two players `0`, `1`, a
`2 × 2` board holding one piece of player `0` that passes the divercite
check. -/
def WitG : Game Nat Nat := {
  isDone := fun s => s == 99,
  moves := fun s => if s = 0 then [10, 11] else [],
  applyAction := fun s a => s + a,
  scores := fun _ p => if p = 0 then 3 else 1,
  players := fun _ => [0, 1],
  dims := fun _ => (2, 2),
  inBoard := fun _ _ => true,
  env := fun _ c => if c = (0, 0) then some (Piece.mk 0) else none,
  checkDivercite := fun _ c => c == ((0 : Nat), (0 : Nat)) }

/-- Every branch of `compute_action` returns the same updated player state:
`time_used` grows by the measured duration, the budget is untouched. -/
theorem compute_action_fst {σ μ : Type} [DecidableEq μ] (g : Game σ μ) (me : Nat)
    (p : MyPlayer) (s : σ) (rt el : Int) :
    (compute_action g me p s rt el).1 = { p with time_used := p.time_used + el } := by
  unfold compute_action
  cases hact : (minimax g me (get_dynamic_depth (p.total_time_budget - p.time_used)) s
      Val.ninf Val.pinf true).2 with
  | none => simp [hact]
  | some a =>
      by_cases hmem : a ∈ g.moves s
      · simp [hact, hmem]
      · simp [hact, hmem]

/-- C2: the depth scheduler is a pure three-tier step function of the scalar
remaining-time input: `3` above `600`, `2` on `(300, 600]`, `1` at or below
`300`; the listed sample points take the listed values and the result is
always at least `1`. -/
theorem claim_C2_depth_schedule (t : Int) :
    (600 < t → get_dynamic_depth t = 3) ∧
    (300 < t ∧ t ≤ 600 → get_dynamic_depth t = 2) ∧
    (t ≤ 300 → get_dynamic_depth t = 1) ∧
    1 ≤ get_dynamic_depth t ∧
    get_dynamic_depth 601 = 3 ∧ get_dynamic_depth 600 = 2 ∧ get_dynamic_depth 301 = 2 ∧
    get_dynamic_depth 300 = 1 ∧ get_dynamic_depth 0 = 1 := by
  refine ⟨?_, ?_, ?_, ?_, by decide, by decide, by decide, by decide, by decide⟩
  · intro h
    simp [get_dynamic_depth, h]
  · intro h
    have h1 : ¬ (t > 600) := by omega
    simp [get_dynamic_depth, h1, h.1]
  · intro h
    have h1 : ¬ (t > 600) := by omega
    have h2 : ¬ (t > 300) := by omega
    simp [get_dynamic_depth, h1, h2]
  · unfold get_dynamic_depth
    split_ifs <;> omega

/-- Witness for C2 at the concrete boundary inputs `601` and `300`. -/
theorem claim_C2_witness : get_dynamic_depth 601 = 3 ∧ get_dynamic_depth 300 = 1 :=
  ⟨(claim_C2_depth_schedule 601).1 (by decide),
   (claim_C2_depth_schedule 300).2.2.1 (by decide)⟩

/-- C5: whenever `depth = 0` or the state reports the game finished,
`minimax` returns `(evaluate_state(state), None)` for every window and both
polarities. -/
theorem claim_C5_terminal {σ μ : Type} (g : Game σ μ) (me : Nat) (d : Nat) (s : σ)
    (alpha beta : Val) (maxP : Bool) (h : d = 0 ∨ g.isDone s = true) :
    minimax g me d s alpha beta maxP = (Val.num (evaluate_state g me s), none) := by
  cases d with
  | zero => rfl
  | succ d =>
      rcases h with h | h
      · exact absurd h (Nat.succ_ne_zero d)
      · simp [minimax, h]

/-- Witness for C5 at depth `0` on the fixture game. -/
theorem claim_C5_witness :
    minimax WitG 0 0 7 Val.ninf Val.pinf true = (Val.num (evaluate_state WitG 0 7), none) :=
  claim_C5_terminal WitG 0 0 7 Val.ninf Val.pinf true (Or.inl rfl)

/-- C9: `compute_action` is independent of the caller-supplied
`remaining_time` argument — two runs from the same internal state with any
two values of that argument return identical results (same updated state,
same depth choice, hence the same move or error). -/
theorem claim_C9_remaining_time_ignored {σ μ : Type} [DecidableEq μ] (g : Game σ μ)
    (me : Nat) (p : MyPlayer) (s : σ) (el rt1 rt2 : Int) :
    compute_action g me p s rt1 el = compute_action g me p s rt2 el := rfl

/-- C4: the heuristic value is the score differential plus the fixed weight
`5` times the divercite-potential differential, whenever the opponent id
resolves (the spec's two-player contract); no normalisation or bounding is
applied. -/
theorem claim_C4_evaluate_formula {σ μ : Type} (g : Game σ μ) (me opp : Nat) (s : σ)
    (h : get_opponent_id g me s = some opp) :
    evaluate_state g me s =
      (g.scores s me - g.scores s opp) +
        5 * ((count_divercite_potential g s me : Int) -
              (count_divercite_potential g s opp : Int)) := by
  simp only [evaluate_state, h]
  ring

/-- Witness for C4 on the fixture game, whose player list resolves the
opponent of `0` to `1`. -/
theorem claim_C4_witness :
    evaluate_state WitG 0 0 =
      (WitG.scores 0 0 - WitG.scores 0 1) +
        5 * ((count_divercite_potential WitG 0 0 : Int) -
              (count_divercite_potential WitG 0 1 : Int)) :=
  claim_C4_evaluate_formula WitG 0 1 0 (by decide)

/-- C3: `compute_action` returns a move `m` exactly when the root search
returned `m` and `m` is in the current legal-move set; otherwise (including
when the search returned no move) it raises
`MethodNotImplementedError("No valid action found.")` — there is no retry
and no fallback move. -/
theorem claim_C3_validation {σ μ : Type} [DecidableEq μ] (g : Game σ μ) (me : Nat)
    (p : MyPlayer) (s : σ) (rt el : Int) :
    (∀ m : μ, (compute_action g me p s rt el).2 = Except.ok m ↔
      ((minimax g me (get_dynamic_depth (p.total_time_budget - p.time_used)) s
          Val.ninf Val.pinf true).2 = some m ∧ m ∈ g.moves s)) ∧
    ((compute_action g me p s rt el).2 =
        Except.error (AgentError.MethodNotImplementedError "No valid action found.") ↔
      ¬ ∃ m : μ, (minimax g me (get_dynamic_depth (p.total_time_budget - p.time_used)) s
          Val.ninf Val.pinf true).2 = some m ∧ m ∈ g.moves s) := by
  unfold compute_action
  cases hact : (minimax g me (get_dynamic_depth (p.total_time_budget - p.time_used)) s
      Val.ninf Val.pinf true).2 with
  | none => simp [hact]
  | some a =>
      by_cases hmem : a ∈ g.moves s
      · constructor
        · intro m
          simp only [hact]
          constructor
          · intro hok
            simp [hmem] at hok
            exact ⟨by rw [hok.symm], by rw [hok.symm]; exact hmem⟩
          · intro hm
            have ham : a = m := by simpa using hm.1
            subst ham
            simp [hmem]
        · simp [hact, hmem]
      · constructor
        · intro m
          simp only [hact]
          constructor
          · intro hok
            simp [hmem] at hok
          · intro hm
            have : a = m := by simpa using hm.1
            exact absurd (this ▸ hm.2) hmem
        · simp [hact, hmem]

/-- Witness for C3: on the fixture game the search returns move `10`, which
is legal, and `compute_action` returns exactly it. -/
theorem claim_C3_witness :
    (compute_action WitG 0 MyPlayer.init 0 5 1).2 = Except.ok 10 :=
  ((claim_C3_validation WitG 0 MyPlayer.init 0 5 1).1 10).mpr (by decide)

/-- C10: whenever the root search yields no move — in particular on any
finished state and on any state with an empty legal-move set —
`compute_action` raises the "no valid action" error and never returns a
move. -/
theorem claim_C10_none_always_raises {σ μ : Type} [DecidableEq μ] (g : Game σ μ)
    (me : Nat) (p : MyPlayer) (s : σ) (rt el : Int) :
    ((minimax g me (get_dynamic_depth (p.total_time_budget - p.time_used)) s
        Val.ninf Val.pinf true).2 = none →
      (compute_action g me p s rt el).2 =
        Except.error (AgentError.MethodNotImplementedError "No valid action found.")) ∧
    (∀ d : Nat, g.isDone s = true → (minimax g me d s Val.ninf Val.pinf true).2 = none) ∧
    (∀ d : Nat, g.moves s = [] → (minimax g me d s Val.ninf Val.pinf true).2 = none) := by
  refine ⟨?_, ?_, ?_⟩
  · intro h
    unfold compute_action
    simp [h]
  · intro d h
    cases d with
    | zero => rfl
    | succ d => simp [minimax, h]
  · intro d h
    cases d with
    | zero => rfl
    | succ d =>
        by_cases hdone : g.isDone s = true
        · simp [minimax, hdone]
        · simp only [Bool.not_eq_true] at hdone
          cases hmax : (true : Bool)
          · simp at hmax
          · simp [minimax, hdone, h, maxLoop]

/-- Witness for C10: on the finished fixture state `99` the root search
yields no move and `compute_action` raises. -/
theorem claim_C10_witness :
    (compute_action WitG 0 MyPlayer.init 99 5 1).2 =
      Except.error (AgentError.MethodNotImplementedError "No valid action found.") :=
  (claim_C10_none_always_raises WitG 0 MyPlayer.init 99 5 1).1
    ((claim_C10_none_always_raises WitG 0 MyPlayer.init 99 5 1).2.1
      (get_dynamic_depth (MyPlayer.init.total_time_budget - MyPlayer.init.time_used))
      (by decide))

/-- C8: each `compute_action` call adds exactly its measured duration to
`time_used` and leaves the budget unchanged; after a sequence of calls
`time_used` equals its initial value plus the sum of the measured
durations, and it never decreases when durations are non-negative. -/
theorem claim_C8_time_accumulator {σ μ : Type} [DecidableEq μ] (g : Game σ μ) (me : Nat)
    (p : MyPlayer) (s : σ) (rt el : Int) (calls : List (σ × Int × Int)) :
    (compute_action g me p s rt el).1.time_used = p.time_used + el ∧
    (compute_action g me p s rt el).1.total_time_budget = p.total_time_budget ∧
    (runCalls g me p calls).time_used =
      p.time_used + (calls.map (fun c => c.2.2)).sum ∧
    ((∀ c ∈ calls, 0 ≤ c.2.2) → p.time_used ≤ (runCalls g me p calls).time_used) := by
  have hsum : ∀ (calls : List (σ × Int × Int)) (q : MyPlayer),
      (runCalls g me q calls).time_used = q.time_used + (calls.map (fun c => c.2.2)).sum := by
    intro calls
    induction calls with
    | nil => intro q; simp [runCalls]
    | cons c rest ih =>
        intro q
        obtain ⟨s', rt', el'⟩ := c
        have hstep := compute_action_fst g me q s' rt' el'
        simp only [runCalls, ih, hstep]
        simp
        ring
  refine ⟨by rw [compute_action_fst], by rw [compute_action_fst], hsum calls p, ?_⟩
  intro hnn
  rw [hsum calls p]
  have : 0 ≤ (calls.map (fun c => c.2.2)).sum := by
    apply List.sum_nonneg
    intro x hx
    obtain ⟨c, hc, rfl⟩ := List.mem_map.1 hx
    exact hnn c hc
  omega

/-- Witness for C8: two concrete calls with durations `2` and `3`
accumulate monotonically. -/
theorem claim_C8_witness :
    MyPlayer.init.time_used ≤
      (runCalls WitG 0 MyPlayer.init [(0, 5, 2), (99, 4, 3)]).time_used :=
  (claim_C8_time_accumulator WitG 0 MyPlayer.init 0 5 2 [(0, 5, 2), (99, 4, 3)]).2.2.2
    (by decide)

/-- Counting fold: threading an accumulator through `if p x then acc + 1
else acc` adds `countP`. -/
theorem foldl_count {α : Type} (p : α → Bool) :
    ∀ (l : List α) (n : Nat),
      (l.foldl (fun acc x => if p x then acc + 1 else acc) n) = n + l.countP p := by
  intro l
  induction l with
  | nil => intro n; simp
  | cons x xs ih =>
      intro n
      by_cases h : p x = true
      · simp [h, ih, List.countP_cons]
        omega
      · simp only [Bool.not_eq_true] at h
        simp [h, ih, List.countP_cons]

/-- Summing fold: threading an accumulator through `acc + f x` adds the sum
of the mapped list. -/
theorem foldl_add_sum {α : Type} (f : α → Nat) :
    ∀ (l : List α) (n : Nat), l.foldl (fun acc x => acc + f x) n = n + (l.map f).sum := by
  intro l
  induction l with
  | nil => intro n; simp
  | cons x xs ih => intro n; simp [ih]; omega

/-- Counting over the row-major cell enumeration decomposes into per-row
counts. -/
theorem boardCells_countP (p : Nat × Nat → Bool) (c : Nat) :
    ∀ (is : List Nat),
      ((is.foldr (fun i acc => ((List.range c).map (fun j => (i, j))) ++ acc) []).countP p) =
        (is.map (fun i => (List.range c).countP (fun j => p (i, j)))).sum := by
  intro is
  induction is with
  | nil => simp
  | cons i is ih =>
      simp only [List.foldr_cons, List.countP_append, ih, List.countP_map, List.map_cons,
        List.sum_cons]
      rfl

/-- The cell-scanning body of `count_divercite_potential` is the counting
fold of the `formationCell` predicate. -/
theorem count_inner {σ μ : Type} (g : Game σ μ) (s : σ) (player_id : Nat) (i : Nat) :
    (fun count2 j =>
      if g.inBoard s (i, j) then
        match g.env s (i, j) with
        | some piece =>
            if piece.ownerId == player_id && g.checkDivercite s (i, j) then count2 + 1
            else count2
        | none => count2
      else count2) =
    (fun (count2 : Nat) (j : Nat) =>
      if formationCell g s player_id (i, j) then count2 + 1 else count2) := by
  funext count2 j
  unfold formationCell
  by_cases hb : g.inBoard s (i, j) = true
  · simp only [hb, if_true, Bool.true_and]
    cases henv : g.env s (i, j) with
    | none => simp
    | some piece => simp
  · simp only [Bool.not_eq_true] at hb
    simp [hb]

/-- C7: the formation counter returns exactly the number of enumerated board
cells that are on the playable board, occupied, owned by the given player
and passing the divercite check (a natural number, hence non-negative); it
counts no cell owned by anyone else, and an empty board counts zero. -/
theorem claim_C7_formation_counter {σ μ : Type} (g : Game σ μ) (s : σ) (player_id : Nat) :
    count_divercite_potential g s player_id =
      (boardCells (g.dims s).1 (g.dims s).2).countP (formationCell g s player_id) ∧
    ((∀ cell : Nat × Nat, g.env s cell = none) →
      count_divercite_potential g s player_id = 0) ∧
    (∀ cell ∈ boardCells (g.dims s).1 (g.dims s).2,
      formationCell g s player_id cell = true →
        ∃ piece, g.env s cell = some piece ∧ piece.ownerId = player_id) := by
  have hmain : count_divercite_potential g s player_id =
      (boardCells (g.dims s).1 (g.dims s).2).countP (formationCell g s player_id) := by
    unfold count_divercite_potential
    simp only [count_inner g s player_id, foldl_count, foldl_add_sum]
    unfold boardCells
    rw [boardCells_countP]
    simp
  refine ⟨hmain, ?_, ?_⟩
  · intro h
    rw [hmain]
    rw [List.countP_eq_zero]
    intro cell _hc
    unfold formationCell
    rw [h cell]
    simp
  · intro cell _hc hform
    unfold formationCell at hform
    cases henv : g.env s cell with
    | none => rw [henv] at hform; simp at hform
    | some piece =>
        rw [henv] at hform
        simp at hform
        exact ⟨piece, rfl, hform.2.1⟩

/-- Witness for C7: on the fixture board the counted cell `(0, 0)` is
occupied by a piece of player `0`. -/
theorem claim_C7_witness :
    ∃ piece, WitG.env 0 (0, 0) = some piece ∧ piece.ownerId = 0 :=
  (claim_C7_formation_counter WitG 0 0).2.2 (0, 0) (by decide) (by decide)

/-- Fail-soft invariant of the maximizing loop.  `child c a` is the value
returned for move `c` when explored at alpha `a` (with the node's fixed
`beta`), `t c` its exhaustive reference value, and the hypothesis `hchild`
is the inductive fail-soft property of the child calls.  `TS` is a ghost
accumulator: the running exhaustive maximum of the already-processed moves.
The conclusions are the fail-soft properties of the loop result against the
exhaustive maximum over the remaining moves folded onto `TS`. -/
theorem maxLoop_bounds {μ : Type} (child : μ → Val → Val) (t : μ → Val) (beta alpha0 : Val)
    (hchild : ∀ c a, Val.blt a beta = true →
      (Val.ble (child c a) a = true → Val.ble (t c) (child c a) = true) ∧
      (Val.ble beta (child c a) = true → Val.ble (child c a) (t c) = true) ∧
      (Val.blt a (child c a) = true → Val.blt (child c a) beta = true → child c a = t c))
    (hab : Val.blt alpha0 beta = true) :
    ∀ (l : List μ) (m a : Val) (best : Option μ) (TS : Val),
      Val.ble m a = true → Val.blt a beta = true →
      Val.ble TS m = true → Val.ble a (Val.vmax alpha0 TS) = true →
      (Val.blt alpha0 m = true → m = TS) →
      (Val.ble (maxLoop child beta l m a best).1 alpha0 = true →
        Val.ble ((l.map t).foldl Val.vmax TS) (maxLoop child beta l m a best).1 = true) ∧
      (Val.ble beta (maxLoop child beta l m a best).1 = true →
        Val.ble (maxLoop child beta l m a best).1 ((l.map t).foldl Val.vmax TS) = true) ∧
      (Val.blt alpha0 (maxLoop child beta l m a best).1 = true →
        Val.blt (maxLoop child beta l m a best).1 beta = true →
        (maxLoop child beta l m a best).1 = (l.map t).foldl Val.vmax TS) := by
  intro l
  induction l with
  | nil =>
      intro m a best TS h1 h2 h3 _h4 h5
      refine ⟨?_, ?_, ?_⟩
      · intro _
        simpa [maxLoop] using h3
      · intro hbr
        exfalso
        simp only [maxLoop] at hbr
        have hmb : Val.blt m beta = true := Val.blt_of_ble_of_blt h1 h2
        have hfalse : Val.ble beta m = false := by simp [Val.ble, hmb]
        rw [hfalse] at hbr
        exact Bool.noConfusion hbr
      · intro har _hrb
        simp only [maxLoop] at har ⊢
        simpa using h5 har
  | cons c rest ih =>
      intro m a best TS h1 h2 h3 h4 h5
      have hpack := hchild c a h2
      by_cases himp : Val.blt m (child c a) = true
      · by_cases hcut : Val.ble beta (child c a) = true
        · -- beta cutoff right after the improvement
          have hres : maxLoop child beta (c :: rest) m a best = (child c a, some c) := by
            simp [maxLoop, himp, hcut]
          refine ⟨?_, ?_, ?_⟩
          · intro hra
            exfalso
            have hav : Val.blt alpha0 (child c a) = true := Val.blt_of_blt_of_ble hab hcut
            rw [hres] at hra
            have hno := Val.not_blt_of_ble hra
            rw [hno] at hav
            exact Bool.noConfusion hav
          · intro _
            rw [hres]
            have hv1 : Val.ble (child c a) (t c) = true := hpack.2.1 hcut
            have hv2 : Val.ble (t c) (Val.vmax TS (t c)) = true := Val.ble_vmax_right TS (t c)
            have hv3 : Val.ble (Val.vmax TS (t c))
                ((rest.map t).foldl Val.vmax (Val.vmax TS (t c))) = true :=
              Val.foldl_vmax_ge_seed _ _
            simp only [List.map_cons, List.foldl_cons]
            exact Val.ble_trans hv1 (Val.ble_trans hv2 hv3)
          · intro _ hrb
            exfalso
            rw [hres] at hrb
            have hno := Val.not_blt_of_ble hcut
            rw [hno] at hrb
            exact Bool.noConfusion hrb
        · -- improvement, no cutoff: continue with m = a = child c a
          have hcutf : Val.ble beta (child c a) = false := by
            simpa using hcut
          have hvb : Val.blt (child c a) beta = true := Val.blt_of_not_ble hcutf
          have hres : maxLoop child beta (c :: rest) m a best =
              maxLoop child beta rest (child c a) (child c a) (some c) := by
            simp [maxLoop, himp, hcutf]
          have htc : Val.ble (t c) (child c a) = true := by
            by_cases hav : Val.blt a (child c a) = true
            · rw [hpack.2.2 hav hvb]
              exact Val.ble_refl _
            · simp only [Bool.not_eq_true] at hav
              exact hpack.1 (Val.ble_of_not_blt hav)
          have hTS2 : Val.ble (Val.vmax TS (t c)) (child c a) = true :=
            Val.vmax_ble (Val.ble_trans h3 (Val.ble_of_blt himp)) htc
          have ha4 : Val.ble (child c a) (Val.vmax alpha0 (Val.vmax TS (t c))) = true := by
            by_cases hav : Val.blt a (child c a) = true
            · have hexact : child c a = t c := hpack.2.2 hav hvb
              rw [hexact]
              exact Val.ble_trans (Val.ble_vmax_right TS (t c)) (Val.ble_vmax_right alpha0 _)
            · simp only [Bool.not_eq_true] at hav
              have hva : Val.ble (child c a) a = true := Val.ble_of_not_blt hav
              refine Val.ble_trans hva (Val.ble_trans h4 ?_)
              refine Val.vmax_ble (Val.ble_vmax_left alpha0 _) ?_
              exact Val.ble_trans (Val.ble_vmax_left TS (t c)) (Val.ble_vmax_right alpha0 _)
          have h5n : Val.blt alpha0 (child c a) = true → child c a = Val.vmax TS (t c) := by
            intro hav0
            by_cases hav : Val.blt a (child c a) = true
            · have hexact : child c a = t c := hpack.2.2 hav hvb
              have hle : Val.ble TS (t c) = true := by
                rw [hexact] at himp
                exact Val.ble_trans h3 (Val.ble_of_blt himp)
              rw [hexact]
              exact (Val.vmax_eq_right hle).symm
            · exfalso
              simp only [Bool.not_eq_true] at hav
              have hva : Val.ble (child c a) a = true := Val.ble_of_not_blt hav
              have hvmax : Val.ble (child c a) (Val.vmax alpha0 TS) = true :=
                Val.ble_trans hva h4
              rcases Val.vmax_cases alpha0 TS with hc1 | hc1
              · rw [hc1] at hvmax
                have hno := Val.not_blt_of_ble hvmax
                rw [hno] at hav0
                exact Bool.noConfusion hav0
              · rw [hc1] at hvmax
                have hvm2 : Val.ble (child c a) m = true := Val.ble_trans hvmax h3
                have hx := Val.blt_of_ble_of_blt hvm2 himp
                rw [Val.blt_irrefl] at hx
                exact Bool.noConfusion hx
          have hrec := ih (child c a) (child c a) (some c) (Val.vmax TS (t c))
            (Val.ble_refl _) hvb hTS2 ha4 h5n
          rw [hres]
          simpa only [List.map_cons, List.foldl_cons] using hrec
      · -- no improvement: the cutoff test cannot fire since m <= a < beta
        simp only [Bool.not_eq_true] at himp
        have hvm : Val.ble (child c a) m = true := Val.ble_of_not_blt himp
        have hmb : Val.blt m beta = true := Val.blt_of_ble_of_blt h1 h2
        have hnocut : Val.ble beta m = false := by simp [Val.ble, hmb]
        have hres : maxLoop child beta (c :: rest) m a best =
            maxLoop child beta rest m a best := by
          simp [maxLoop, himp, hnocut]
        have htc : Val.ble (t c) m = true := by
          have hva : Val.ble (child c a) a = true := Val.ble_trans hvm h1
          exact Val.ble_trans (hpack.1 hva) hvm
        have hTS2 : Val.ble (Val.vmax TS (t c)) m = true := Val.vmax_ble h3 htc
        have ha4 : Val.ble a (Val.vmax alpha0 (Val.vmax TS (t c))) = true := by
          refine Val.ble_trans h4 ?_
          refine Val.vmax_ble (Val.ble_vmax_left alpha0 _) ?_
          exact Val.ble_trans (Val.ble_vmax_left TS (t c)) (Val.ble_vmax_right alpha0 _)
        have h5n : Val.blt alpha0 m = true → m = Val.vmax TS (t c) := by
          intro h
          have hmTS : m = TS := h5 h
          rw [← hmTS]
          exact (Val.vmax_eq_left htc).symm
        have hrec := ih m a best (Val.vmax TS (t c)) h1 h2 hTS2 ha4 h5n
        rw [hres]
        simpa only [List.map_cons, List.foldl_cons] using hrec

/-- Fail-soft invariant of the minimizing loop, dual to `maxLoop_bounds`:
`m` is the running minimum, `b` the running beta, `TS` the ghost exhaustive
minimum of the processed moves. -/
theorem minLoop_bounds {μ : Type} (child : μ → Val → Val) (t : μ → Val) (alpha beta0 : Val)
    (hchild : ∀ c b, Val.blt alpha b = true →
      (Val.ble (child c b) alpha = true → Val.ble (t c) (child c b) = true) ∧
      (Val.ble b (child c b) = true → Val.ble (child c b) (t c) = true) ∧
      (Val.blt alpha (child c b) = true → Val.blt (child c b) b = true → child c b = t c))
    (hab : Val.blt alpha beta0 = true) :
    ∀ (l : List μ) (m b : Val) (best : Option μ) (TS : Val),
      Val.ble b m = true → Val.blt alpha b = true →
      Val.ble m TS = true → Val.ble (Val.vmin beta0 TS) b = true →
      (Val.blt m beta0 = true → m = TS) →
      (Val.ble beta0 (minLoop child alpha l m b best).1 = true →
        Val.ble (minLoop child alpha l m b best).1 ((l.map t).foldl Val.vmin TS) = true) ∧
      (Val.ble (minLoop child alpha l m b best).1 alpha = true →
        Val.ble ((l.map t).foldl Val.vmin TS) (minLoop child alpha l m b best).1 = true) ∧
      (Val.blt alpha (minLoop child alpha l m b best).1 = true →
        Val.blt (minLoop child alpha l m b best).1 beta0 = true →
        (minLoop child alpha l m b best).1 = (l.map t).foldl Val.vmin TS) := by
  intro l
  induction l with
  | nil =>
      intro m b best TS h1 h2 h3 _h4 h5
      refine ⟨?_, ?_, ?_⟩
      · intro _
        simpa [minLoop] using h3
      · intro har
        exfalso
        simp only [minLoop] at har
        have ham : Val.blt alpha m = true := Val.blt_of_blt_of_ble h2 h1
        have hfalse : Val.ble m alpha = false := by simp [Val.ble, ham]
        rw [hfalse] at har
        exact Bool.noConfusion har
      · intro _har hrb
        simp only [minLoop] at hrb ⊢
        simpa using h5 hrb
  | cons c rest ih =>
      intro m b best TS h1 h2 h3 h4 h5
      have hpack := hchild c b h2
      by_cases himp : Val.blt (child c b) m = true
      · by_cases hcut : Val.ble (child c b) alpha = true
        · -- alpha cutoff right after the improvement
          have hres : minLoop child alpha (c :: rest) m b best = (child c b, some c) := by
            simp [minLoop, himp, hcut]
          refine ⟨?_, ?_, ?_⟩
          · intro hbr
            exfalso
            rw [hres] at hbr
            have hba : Val.ble beta0 alpha = true := Val.ble_trans hbr hcut
            have hx := Val.blt_of_blt_of_ble hab hba
            rw [Val.blt_irrefl] at hx
            exact Bool.noConfusion hx
          · intro _
            rw [hres]
            have hv1 : Val.ble (t c) (child c b) = true := hpack.1 hcut
            have hv2 : Val.ble (Val.vmin TS (t c)) (t c) = true := Val.ble_vmin_right TS (t c)
            have hv3 : Val.ble ((rest.map t).foldl Val.vmin (Val.vmin TS (t c)))
                (Val.vmin TS (t c)) = true := Val.foldl_vmin_le_seed _ _
            simp only [List.map_cons, List.foldl_cons]
            exact Val.ble_trans hv3 (Val.ble_trans hv2 hv1)
          · intro har _
            exfalso
            rw [hres] at har
            have hno := Val.not_blt_of_ble hcut
            rw [hno] at har
            exact Bool.noConfusion har
        · -- improvement, no cutoff: continue with m = b = child c b
          have hcutf : Val.ble (child c b) alpha = false := by
            simpa using hcut
          have hav : Val.blt alpha (child c b) = true := Val.blt_of_not_ble hcutf
          have hres : minLoop child alpha (c :: rest) m b best =
              minLoop child alpha rest (child c b) (child c b) (some c) := by
            simp [minLoop, himp, hcutf]
          have htc : Val.ble (child c b) (t c) = true := by
            by_cases hvb : Val.blt (child c b) b = true
            · rw [hpack.2.2 hav hvb]
              exact Val.ble_refl _
            · simp only [Bool.not_eq_true] at hvb
              exact hpack.2.1 (Val.ble_of_not_blt hvb)
          have hTS2 : Val.ble (child c b) (Val.vmin TS (t c)) = true :=
            Val.ble_vmin (Val.ble_trans (Val.ble_of_blt himp) h3) htc
          have hb4 : Val.ble (Val.vmin beta0 (Val.vmin TS (t c))) (child c b) = true := by
            by_cases hvb : Val.blt (child c b) b = true
            · have hexact : child c b = t c := hpack.2.2 hav hvb
              rw [hexact]
              exact Val.ble_trans (Val.ble_vmin_right beta0 _) (Val.ble_vmin_right TS (t c))
            · simp only [Bool.not_eq_true] at hvb
              have hbv : Val.ble b (child c b) = true := Val.ble_of_not_blt hvb
              refine Val.ble_trans ?_ (Val.ble_trans h4 hbv)
              refine Val.ble_vmin (Val.ble_vmin_left beta0 _) ?_
              exact Val.ble_trans (Val.ble_vmin_right beta0 _) (Val.ble_vmin_left TS (t c))
          have h5n : Val.blt (child c b) beta0 = true → child c b = Val.vmin TS (t c) := by
            intro hvb0
            by_cases hvb : Val.blt (child c b) b = true
            · have hexact : child c b = t c := hpack.2.2 hav hvb
              have hle : Val.ble (t c) TS = true := by
                rw [hexact] at himp
                exact Val.ble_trans (Val.ble_of_blt himp) h3
              rw [hexact]
              exact (Val.vmin_eq_right hle).symm
            · exfalso
              simp only [Bool.not_eq_true] at hvb
              have hbv : Val.ble b (child c b) = true := Val.ble_of_not_blt hvb
              have hvmin : Val.ble (Val.vmin beta0 TS) (child c b) = true :=
                Val.ble_trans h4 hbv
              rcases Val.vmin_cases beta0 TS with hc1 | hc1
              · rw [hc1] at hvmin
                have hno := Val.not_blt_of_ble hvmin
                rw [hno] at hvb0
                exact Bool.noConfusion hvb0
              · rw [hc1] at hvmin
                have hvm2 : Val.ble m (child c b) = true := Val.ble_trans h3 hvmin
                have hx := Val.blt_of_blt_of_ble himp hvm2
                rw [Val.blt_irrefl] at hx
                exact Bool.noConfusion hx
          have hrec := ih (child c b) (child c b) (some c) (Val.vmin TS (t c))
            (Val.ble_refl _) hav hTS2 hb4 h5n
          rw [hres]
          simpa only [List.map_cons, List.foldl_cons] using hrec
      · -- no improvement: the cutoff test cannot fire since alpha < b <= m
        simp only [Bool.not_eq_true] at himp
        have hmv : Val.ble m (child c b) = true := Val.ble_of_not_blt himp
        have ham : Val.blt alpha m = true := Val.blt_of_blt_of_ble h2 h1
        have hnocut : Val.ble m alpha = false := by simp [Val.ble, ham]
        have hres : minLoop child alpha (c :: rest) m b best =
            minLoop child alpha rest m b best := by
          simp [minLoop, himp, hnocut]
        have htc : Val.ble m (t c) = true := by
          have hbv : Val.ble b (child c b) = true := Val.ble_trans h1 hmv
          exact Val.ble_trans hmv (hpack.2.1 hbv)
        have hTS2 : Val.ble m (Val.vmin TS (t c)) = true := Val.ble_vmin h3 htc
        have hb4 : Val.ble (Val.vmin beta0 (Val.vmin TS (t c))) b = true := by
          refine Val.ble_trans ?_ h4
          refine Val.ble_vmin (Val.ble_vmin_left beta0 _) ?_
          exact Val.ble_trans (Val.ble_vmin_right beta0 _) (Val.ble_vmin_left TS (t c))
        have h5n : Val.blt m beta0 = true → m = Val.vmin TS (t c) := by
          intro h
          have hmTS : m = TS := h5 h
          rw [← hmTS]
          exact (Val.vmin_eq_left htc).symm
        have hrec := ih m b best (Val.vmin TS (t c)) h1 h2 hTS2 hb4 h5n
        rw [hres]
        simpa only [List.map_cons, List.foldl_cons] using hrec

/-- Fail-soft correctness of the pruning search against the exhaustive
search, for every window with `alpha < beta`: a value at or below alpha is
an upper bound on the exhaustive value, a value at or above beta is a lower
bound, and a value strictly inside the window is exact. -/
theorem minimax_bounds {σ μ : Type} (g : Game σ μ) (me : Nat) :
    ∀ (d : Nat) (s : σ) (alpha beta : Val) (maxP : Bool), Val.blt alpha beta = true →
      (Val.ble (minimax g me d s alpha beta maxP).1 alpha = true →
        Val.ble (minimaxFull g me d s maxP) (minimax g me d s alpha beta maxP).1 = true) ∧
      (Val.ble beta (minimax g me d s alpha beta maxP).1 = true →
        Val.ble (minimax g me d s alpha beta maxP).1 (minimaxFull g me d s maxP) = true) ∧
      (Val.blt alpha (minimax g me d s alpha beta maxP).1 = true →
        Val.blt (minimax g me d s alpha beta maxP).1 beta = true →
        (minimax g me d s alpha beta maxP).1 = minimaxFull g me d s maxP) := by
  intro d
  induction d with
  | zero =>
      intro s alpha beta maxP _hab
      refine ⟨fun _ => ?_, fun _ => ?_, fun _ _ => ?_⟩ <;>
        simp [minimax, minimaxFull, Val.ble_refl]
  | succ d ih =>
      intro s alpha beta maxP hab
      by_cases hdone : g.isDone s = true
      · refine ⟨fun _ => ?_, fun _ => ?_, fun _ _ => ?_⟩ <;>
          simp [minimax, minimaxFull, hdone, Val.ble_refl]
      · simp only [Bool.not_eq_true] at hdone
        cases maxP with
        | true =>
            have hmeq : minimax g me (d + 1) s alpha beta true =
                maxLoop (fun c a => (minimax g me d (g.applyAction s c) a beta false).1)
                  beta (g.moves s) Val.ninf alpha none := by
              simp [minimax, hdone]
            have hfull : minimaxFull g me (d + 1) s true =
                ((g.moves s).map
                  (fun c => minimaxFull g me d (g.applyAction s c) false)).foldl
                    Val.vmax Val.ninf := by
              rw [foldl_map_op]
              simp [minimaxFull, hdone]
            have hloop := maxLoop_bounds
              (fun c a => (minimax g me d (g.applyAction s c) a beta false).1)
              (fun c => minimaxFull g me d (g.applyAction s c) false)
              beta alpha
              (fun c a hab2 => ih (g.applyAction s c) a beta false hab2)
              hab
              (g.moves s) Val.ninf alpha none Val.ninf
              (Val.ninf_ble alpha) hab (Val.ble_refl Val.ninf)
              (by rw [Val.vmax_x_ninf]; exact Val.ble_refl alpha)
              (fun h => by rw [Val.blt_x_ninf] at h)
            rw [hmeq, hfull]
            exact hloop
        | false =>
            have hmeq : minimax g me (d + 1) s alpha beta false =
                minLoop (fun c b => (minimax g me d (g.applyAction s c) alpha b true).1)
                  alpha (g.moves s) Val.pinf beta none := by
              simp [minimax, hdone]
            have hfull : minimaxFull g me (d + 1) s false =
                ((g.moves s).map
                  (fun c => minimaxFull g me d (g.applyAction s c) true)).foldl
                    Val.vmin Val.pinf := by
              rw [foldl_map_op]
              simp [minimaxFull, hdone]
            have hloop := minLoop_bounds
              (fun c b => (minimax g me d (g.applyAction s c) alpha b true).1)
              (fun c => minimaxFull g me d (g.applyAction s c) true)
              alpha beta
              (fun c b hab2 => ih (g.applyAction s c) alpha b true hab2)
              hab
              (g.moves s) Val.pinf beta none Val.pinf
              (Val.ble_pinf beta) hab (Val.ble_refl Val.pinf)
              (by rw [Val.vmin_x_pinf]; exact Val.ble_refl beta)
              (fun h => by rw [Val.pinf_blt] at h)
            rw [hmeq, hfull]
            exact ⟨hloop.2.1, hloop.1, hloop.2.2⟩

/-- C1: at the root window `alpha = -inf`, `beta = +inf` with the maximizing
player to move, the value computed by the alpha-beta search equals the value
of the exhaustive depth-limited minimax with no pruning, for every game,
state and depth. -/
theorem claim_C1_alphabeta_equals_minimax {σ μ : Type} (g : Game σ μ) (me : Nat)
    (d : Nat) (s : σ) :
    (minimax g me d s Val.ninf Val.pinf true).1 = minimaxFull g me d s true := by
  have hpack := minimax_bounds g me d s Val.ninf Val.pinf true rfl
  by_cases h1 : Val.ble (minimax g me d s Val.ninf Val.pinf true).1 Val.ninf = true
  · have hT := hpack.1 h1
    have hrn : (minimax g me d s Val.ninf Val.pinf true).1 = Val.ninf :=
      (Val.ble_ninf_iff _).1 h1
    rw [hrn] at hT
    have hTn : minimaxFull g me d s true = Val.ninf := (Val.ble_ninf_iff _).1 hT
    rw [hrn, hTn]
  · by_cases h2 : Val.ble Val.pinf (minimax g me d s Val.ninf Val.pinf true).1 = true
    · have hT := hpack.2.1 h2
      have hrp : (minimax g me d s Val.ninf Val.pinf true).1 = Val.pinf :=
        (Val.pinf_ble_iff _).1 h2
      rw [hrp] at hT
      have hTp : minimaxFull g me d s true = Val.pinf := (Val.pinf_ble_iff _).1 hT
      rw [hrp, hTp]
    · have hb1 : Val.blt Val.ninf (minimax g me d s Val.ninf Val.pinf true).1 = true :=
        Val.blt_of_not_ble (by simpa using h1)
      have hb2 : Val.blt (minimax g me d s Val.ninf Val.pinf true).1 Val.pinf = true :=
        Val.blt_of_not_ble (by simpa using h2)
      exact hpack.2.2 hb1 hb2

/-- Behaviour of the strict-improvement maximum fold: either no pair ever
strictly improved the seed (the result is the seed value and the seed best,
and every listed value is at most the seed), or the result value strictly
improves the seed and is attained at an index whose pair supplies the
returned move, with every earlier value strictly below the result and every
value at most the result. -/
theorem bestFold_spec {μ : Type} : ∀ (tr : List (μ × Val)) (m : Val) (best : Option μ),
    ((bestFold tr m best).1 = m ∧ (bestFold tr m best).2 = best ∧
      ∀ p ∈ tr, Val.ble p.2 m = true) ∨
    (Val.blt m (bestFold tr m best).1 = true ∧
      ∃ k, ∃ hk : k < tr.length,
        (bestFold tr m best).2 = some (tr.get ⟨k, hk⟩).1 ∧
        (tr.get ⟨k, hk⟩).2 = (bestFold tr m best).1 ∧
        (∀ p ∈ tr.take k, Val.blt p.2 (bestFold tr m best).1 = true) ∧
        (∀ p ∈ tr, Val.ble p.2 (bestFold tr m best).1 = true)) := by
  intro tr
  induction tr with
  | nil =>
      intro m best
      exact Or.inl ⟨rfl, rfl, by simp⟩
  | cons cv rest ih =>
      intro m best
      obtain ⟨c, v⟩ := cv
      by_cases h : Val.blt m v = true
      · have hres : bestFold ((c, v) :: rest) m best = bestFold rest v (some c) := by
          simp [bestFold, h]
        rw [hres]
        rcases ih v (some c) with ⟨hv, hb, hall⟩ | ⟨hlt, k, hk, hb, hval, htake, hall⟩
        · right
          refine ⟨?_, 0, by simp, ?_, ?_, ?_, ?_⟩
          · rw [hv]; exact h
          · rw [hb]; rfl
          · exact hv.symm
          · intro p hp; simp at hp
          · intro p hp
            rcases List.mem_cons.1 hp with hpe | hp2
            · rw [hpe, hv]; exact Val.ble_refl v
            · rw [hv]; exact hall p hp2
        · right
          refine ⟨Val.blt_trans h hlt, k + 1, Nat.succ_lt_succ hk, hb, hval, ?_, ?_⟩
          · intro p hp
            rcases List.mem_cons.1 (by simpa [List.take_succ_cons] using hp) with hpe | hp2
            · rw [hpe]; exact hlt
            · exact htake p hp2
          · intro p hp
            rcases List.mem_cons.1 hp with hpe | hp2
            · rw [hpe]; exact Val.ble_of_blt hlt
            · exact hall p hp2
      · have hvf : Val.blt m v = false := by simpa using h
        have hvm : Val.ble v m = true := Val.ble_of_not_blt hvf
        have hres : bestFold ((c, v) :: rest) m best = bestFold rest m best := by
          simp [bestFold, hvf]
        rw [hres]
        rcases ih m best with ⟨hv, hb, hall⟩ | ⟨hlt, k, hk, hb, hval, htake, hall⟩
        · left
          refine ⟨hv, hb, ?_⟩
          intro p hp
          rcases List.mem_cons.1 hp with hpe | hp2
          · rw [hpe]; exact hvm
          · exact hall p hp2
        · right
          refine ⟨hlt, k + 1, Nat.succ_lt_succ hk, hb, hval, ?_, ?_⟩
          · intro p hp
            rcases List.mem_cons.1 (by simpa [List.take_succ_cons] using hp) with hpe | hp2
            · rw [hpe]; exact Val.blt_of_ble_of_blt hvm hlt
            · exact htake p hp2
          · intro p hp
            rcases List.mem_cons.1 hp with hpe | hp2
            · rw [hpe]; exact Val.ble_trans hvm (Val.ble_of_blt hlt)
            · exact hall p hp2

/-- Dual of `bestFold_spec` for the strict-improvement minimum fold. -/
theorem bestFoldMin_spec {μ : Type} : ∀ (tr : List (μ × Val)) (m : Val) (best : Option μ),
    ((bestFoldMin tr m best).1 = m ∧ (bestFoldMin tr m best).2 = best ∧
      ∀ p ∈ tr, Val.ble m p.2 = true) ∨
    (Val.blt (bestFoldMin tr m best).1 m = true ∧
      ∃ k, ∃ hk : k < tr.length,
        (bestFoldMin tr m best).2 = some (tr.get ⟨k, hk⟩).1 ∧
        (tr.get ⟨k, hk⟩).2 = (bestFoldMin tr m best).1 ∧
        (∀ p ∈ tr.take k, Val.blt (bestFoldMin tr m best).1 p.2 = true) ∧
        (∀ p ∈ tr, Val.ble (bestFoldMin tr m best).1 p.2 = true)) := by
  intro tr
  induction tr with
  | nil =>
      intro m best
      exact Or.inl ⟨rfl, rfl, by simp⟩
  | cons cv rest ih =>
      intro m best
      obtain ⟨c, v⟩ := cv
      by_cases h : Val.blt v m = true
      · have hres : bestFoldMin ((c, v) :: rest) m best = bestFoldMin rest v (some c) := by
          simp [bestFoldMin, h]
        rw [hres]
        rcases ih v (some c) with ⟨hv, hb, hall⟩ | ⟨hlt, k, hk, hb, hval, htake, hall⟩
        · right
          refine ⟨?_, 0, by simp, ?_, ?_, ?_, ?_⟩
          · rw [hv]; exact h
          · rw [hb]; rfl
          · exact hv.symm
          · intro p hp; simp at hp
          · intro p hp
            rcases List.mem_cons.1 hp with hpe | hp2
            · rw [hpe, hv]; exact Val.ble_refl v
            · rw [hv]; exact hall p hp2
        · right
          refine ⟨Val.blt_trans hlt h, k + 1, Nat.succ_lt_succ hk, hb, hval, ?_, ?_⟩
          · intro p hp
            rcases List.mem_cons.1 (by simpa [List.take_succ_cons] using hp) with hpe | hp2
            · rw [hpe]; exact hlt
            · exact htake p hp2
          · intro p hp
            rcases List.mem_cons.1 hp with hpe | hp2
            · rw [hpe]; exact Val.ble_of_blt hlt
            · exact hall p hp2
      · have hvf : Val.blt v m = false := by simpa using h
        have hvm : Val.ble m v = true := Val.ble_of_not_blt hvf
        have hres : bestFoldMin ((c, v) :: rest) m best = bestFoldMin rest m best := by
          simp [bestFoldMin, hvf]
        rw [hres]
        rcases ih m best with ⟨hv, hb, hall⟩ | ⟨hlt, k, hk, hb, hval, htake, hall⟩
        · left
          refine ⟨hv, hb, ?_⟩
          intro p hp
          rcases List.mem_cons.1 hp with hpe | hp2
          · rw [hpe]; exact hvm
          · exact hall p hp2
        · right
          refine ⟨hlt, k + 1, Nat.succ_lt_succ hk, hb, hval, ?_, ?_⟩
          · intro p hp
            rcases List.mem_cons.1 (by simpa [List.take_succ_cons] using hp) with hpe | hp2
            · rw [hpe]; exact Val.blt_of_blt_of_ble hlt hvm
            · exact htake p hp2
          · intro p hp
            rcases List.mem_cons.1 hp with hpe | hp2
            · rw [hpe]; exact Val.ble_trans (Val.ble_of_blt hlt) hvm
            · exact hall p hp2

/-- The maximizing loop is the strict-improvement maximum fold over its own
explored trace. -/
theorem maxLoop_eq_bestFold {μ : Type} (child : μ → Val → Val) (beta : Val) :
    ∀ (l : List μ) (m a : Val) (best : Option μ),
      maxLoop child beta l m a best = bestFold (maxTrace child beta l m a) m best := by
  intro l
  induction l with
  | nil => intro m a best; rfl
  | cons c rest ih =>
      intro m a best
      by_cases himp : Val.blt m (child c a) = true
      · by_cases hcut : Val.ble beta (child c a) = true
        · simp [maxLoop, maxTrace, bestFold, himp, hcut]
        · have hcutf : Val.ble beta (child c a) = false := by simpa using hcut
          simp [maxLoop, maxTrace, bestFold, himp, hcutf, ih]
      · have hvf : Val.blt m (child c a) = false := by simpa using himp
        by_cases hcut : Val.ble beta m = true
        · simp [maxLoop, maxTrace, bestFold, hvf, hcut]
        · have hcutf : Val.ble beta m = false := by simpa using hcut
          simp [maxLoop, maxTrace, bestFold, hvf, hcutf, ih]

/-- The minimizing loop is the strict-improvement minimum fold over its own
explored trace. -/
theorem minLoop_eq_bestFoldMin {μ : Type} (child : μ → Val → Val) (alpha : Val) :
    ∀ (l : List μ) (m b : Val) (best : Option μ),
      minLoop child alpha l m b best = bestFoldMin (minTrace child alpha l m b) m best := by
  intro l
  induction l with
  | nil => intro m b best; rfl
  | cons c rest ih =>
      intro m b best
      by_cases himp : Val.blt (child c b) m = true
      · by_cases hcut : Val.ble (child c b) alpha = true
        · simp [minLoop, minTrace, bestFoldMin, himp, hcut]
        · have hcutf : Val.ble (child c b) alpha = false := by simpa using hcut
          simp [minLoop, minTrace, bestFoldMin, himp, hcutf, ih]
      · have hvf : Val.blt (child c b) m = false := by simpa using himp
        by_cases hcut : Val.ble m alpha = true
        · simp [minLoop, minTrace, bestFoldMin, hvf, hcut]
        · have hcutf : Val.ble m alpha = false := by simpa using hcut
          simp [minLoop, minTrace, bestFoldMin, hvf, hcutf, ih]

/-- The moves of the explored trace form a prefix of the generator's
enumeration order. -/
theorem maxTrace_prefix {μ : Type} (child : μ → Val → Val) (beta : Val) :
    ∀ (l : List μ) (m a : Val), (maxTrace child beta l m a).map Prod.fst <+: l := by
  intro l
  induction l with
  | nil => intro m a; simp [maxTrace]
  | cons c rest ih =>
      intro m a
      by_cases himp : Val.blt m (child c a) = true
      · by_cases hcut : Val.ble beta (child c a) = true
        · refine ⟨rest, ?_⟩
          simp [maxTrace, himp, hcut]
        · have hcutf : Val.ble beta (child c a) = false := by simpa using hcut
          obtain ⟨u, hu⟩ := ih (child c a) (child c a)
          refine ⟨u, ?_⟩
          simp [maxTrace, himp, hcutf, hu]
      · have hvf : Val.blt m (child c a) = false := by simpa using himp
        by_cases hcut : Val.ble beta m = true
        · refine ⟨rest, ?_⟩
          simp [maxTrace, hvf, hcut]
        · have hcutf : Val.ble beta m = false := by simpa using hcut
          obtain ⟨u, hu⟩ := ih m a
          refine ⟨u, ?_⟩
          simp [maxTrace, hvf, hcutf, hu]

/-- The moves of the minimizing explored trace form a prefix of the
generator's enumeration order. -/
theorem minTrace_prefix {μ : Type} (child : μ → Val → Val) (alpha : Val) :
    ∀ (l : List μ) (m b : Val), (minTrace child alpha l m b).map Prod.fst <+: l := by
  intro l
  induction l with
  | nil => intro m b; simp [minTrace]
  | cons c rest ih =>
      intro m b
      by_cases himp : Val.blt (child c b) m = true
      · by_cases hcut : Val.ble (child c b) alpha = true
        · refine ⟨rest, ?_⟩
          simp [minTrace, himp, hcut]
        · have hcutf : Val.ble (child c b) alpha = false := by simpa using hcut
          obtain ⟨u, hu⟩ := ih (child c b) (child c b)
          refine ⟨u, ?_⟩
          simp [minTrace, himp, hcutf, hu]
      · have hvf : Val.blt (child c b) m = false := by simpa using himp
        by_cases hcut : Val.ble m alpha = true
        · refine ⟨rest, ?_⟩
          simp [minTrace, hvf, hcut]
        · have hcutf : Val.ble m alpha = false := by simpa using hcut
          obtain ⟨u, hu⟩ := ih m b
          refine ⟨u, ?_⟩
          simp [minTrace, hvf, hcutf, hu]

/-- C6 counterexample: at the non-terminal root `0` of `CexG` with moves
`[5]`, the recursive value of the earliest (only) move equals the returned
best value `-inf`, yet `minimax` returns no move at all (`best_action` is
only replaced on strict improvement over the `-inf` seed, which `-inf`
child values never achieve), so the returned move is not the earliest move
attaining the best value. -/
theorem claim_C6_counterexample :
    CexG.isDone 0 = false ∧
    CexG.moves 0 = [5] ∧
    (minimax CexG 0 2 (CexG.applyAction 0 5) Val.ninf Val.pinf false).1 = Val.ninf ∧
    minimax CexG 0 3 0 Val.ninf Val.pinf true = (Val.ninf, none) ∧
    (minimax CexG 0 3 0 Val.ninf Val.pinf true).2 ≠ some 5 :=
  ⟨rfl, rfl, by decide, by decide, by decide⟩

/-- C6 (amended): at every non-terminal node the `minimax` result is the
strict-improvement fold over the trace of explored `(move, value)` pairs,
the explored moves form a prefix of the generator's enumeration order, and
whenever a move is returned it is the earliest explored move whose
recursive value equals the returned best value (every earlier explored
value is strictly worse, so ties keep the earliest-found move).  Amendment
forced by the counterexample: when no explored value strictly improves the
`-inf` seed of a maximizing node (resp. the `+inf` seed of a minimizing
node), the code returns no move at all instead of the earliest
value-attaining move. -/
theorem claim_C6_earliest_tiebreak {σ μ : Type} (g : Game σ μ) (me : Nat) (d : Nat)
    (s : σ) (alpha beta : Val) (hdone : g.isDone s = false) :
    (minimax g me (d + 1) s alpha beta true =
      bestFold (maxTrace (maxChild g me d s beta) beta (g.moves s) Val.ninf alpha)
        Val.ninf none ∧
     (maxTrace (maxChild g me d s beta) beta (g.moves s) Val.ninf alpha).map Prod.fst <+:
       g.moves s ∧
     (∀ a' : μ, (minimax g me (d + 1) s alpha beta true).2 = some a' →
       ∃ k, ∃ hk : k <
           (maxTrace (maxChild g me d s beta) beta (g.moves s) Val.ninf alpha).length,
         ((maxTrace (maxChild g me d s beta) beta (g.moves s) Val.ninf alpha).get
             ⟨k, hk⟩).1 = a' ∧
         ((maxTrace (maxChild g me d s beta) beta (g.moves s) Val.ninf alpha).get
             ⟨k, hk⟩).2 = (minimax g me (d + 1) s alpha beta true).1 ∧
         ∀ p ∈ (maxTrace (maxChild g me d s beta) beta (g.moves s) Val.ninf alpha).take k,
           Val.blt p.2 (minimax g me (d + 1) s alpha beta true).1 = true) ∧
     ((minimax g me (d + 1) s alpha beta true).2 = none →
       (minimax g me (d + 1) s alpha beta true).1 = Val.ninf)) ∧
    (minimax g me (d + 1) s alpha beta false =
      bestFoldMin (minTrace (minChild g me d s alpha) alpha (g.moves s) Val.pinf beta)
        Val.pinf none ∧
     (minTrace (minChild g me d s alpha) alpha (g.moves s) Val.pinf beta).map Prod.fst <+:
       g.moves s ∧
     (∀ a' : μ, (minimax g me (d + 1) s alpha beta false).2 = some a' →
       ∃ k, ∃ hk : k <
           (minTrace (minChild g me d s alpha) alpha (g.moves s) Val.pinf beta).length,
         ((minTrace (minChild g me d s alpha) alpha (g.moves s) Val.pinf beta).get
             ⟨k, hk⟩).1 = a' ∧
         ((minTrace (minChild g me d s alpha) alpha (g.moves s) Val.pinf beta).get
             ⟨k, hk⟩).2 = (minimax g me (d + 1) s alpha beta false).1 ∧
         ∀ p ∈ (minTrace (minChild g me d s alpha) alpha (g.moves s) Val.pinf beta).take k,
           Val.blt (minimax g me (d + 1) s alpha beta false).1 p.2 = true) ∧
     ((minimax g me (d + 1) s alpha beta false).2 = none →
       (minimax g me (d + 1) s alpha beta false).1 = Val.pinf)) := by
  constructor
  · have hroot : minimax g me (d + 1) s alpha beta true =
        maxLoop (maxChild g me d s beta) beta (g.moves s) Val.ninf alpha none := by
      unfold maxChild
      simp [minimax, hdone]
    have htr : minimax g me (d + 1) s alpha beta true =
        bestFold (maxTrace (maxChild g me d s beta) beta (g.moves s) Val.ninf alpha)
          Val.ninf none :=
      hroot.trans (maxLoop_eq_bestFold _ _ _ _ _ _)
    refine ⟨htr, maxTrace_prefix _ _ _ _ _, ?_, ?_⟩
    · intro a' hsome
      rcases bestFold_spec (maxTrace (maxChild g me d s beta) beta (g.moves s) Val.ninf alpha)
          Val.ninf none with ⟨_h1, h2, _h3⟩ | ⟨_hlt, k, hk, hb, hval, htake, _hall⟩
      · rw [htr, h2] at hsome
        exact Option.noConfusion hsome
      · rw [htr, hb] at hsome
        refine ⟨k, hk, (Option.some.inj hsome), ?_, ?_⟩
        · rw [htr]
          exact hval
        · intro p hp
          rw [htr]
          exact htake p hp
    · intro hnone
      rcases bestFold_spec (maxTrace (maxChild g me d s beta) beta (g.moves s) Val.ninf alpha)
          Val.ninf none with ⟨h1, _h2, _h3⟩ | ⟨_hlt, k, hk, hb, _hrest⟩
      · rw [htr]
        exact h1
      · rw [htr, hb] at hnone
        exact Option.noConfusion hnone
  · have hroot : minimax g me (d + 1) s alpha beta false =
        minLoop (minChild g me d s alpha) alpha (g.moves s) Val.pinf beta none := by
      unfold minChild
      simp [minimax, hdone]
    have htr : minimax g me (d + 1) s alpha beta false =
        bestFoldMin (minTrace (minChild g me d s alpha) alpha (g.moves s) Val.pinf beta)
          Val.pinf none :=
      hroot.trans (minLoop_eq_bestFoldMin _ _ _ _ _ _)
    refine ⟨htr, minTrace_prefix _ _ _ _ _, ?_, ?_⟩
    · intro a' hsome
      rcases bestFoldMin_spec (minTrace (minChild g me d s alpha) alpha (g.moves s)
          Val.pinf beta) Val.pinf none with
        ⟨_h1, h2, _h3⟩ | ⟨_hlt, k, hk, hb, hval, htake, _hall⟩
      · rw [htr, h2] at hsome
        exact Option.noConfusion hsome
      · rw [htr, hb] at hsome
        refine ⟨k, hk, (Option.some.inj hsome), ?_, ?_⟩
        · rw [htr]
          exact hval
        · intro p hp
          rw [htr]
          exact htake p hp
    · intro hnone
      rcases bestFoldMin_spec (minTrace (minChild g me d s alpha) alpha (g.moves s)
          Val.pinf beta) Val.pinf none with
        ⟨h1, _h2, _h3⟩ | ⟨_hlt, k, hk, hb, _hrest⟩
      · rw [htr]
        exact h1
      · rw [htr, hb] at hnone
        exact Option.noConfusion hnone

/-- Witness for the amended C6 at the non-terminal fixture root: the
depth-1 maximizing search result coincides with the strict-improvement fold
over its explored trace. -/
theorem claim_C6_witness :
    minimax WitG 0 1 0 Val.ninf Val.pinf true =
      bestFold (maxTrace (maxChild WitG 0 0 0 Val.pinf) Val.pinf (WitG.moves 0)
        Val.ninf Val.ninf) Val.ninf none :=
  (claim_C6_earliest_tiebreak WitG 0 0 0 Val.ninf Val.pinf (by decide)).1.1

end Divercite
